import Mathlib

/-!
# iSER target header (`drivers/infiniband/ulp/isert/ib_isert.h`)

A shallow embedding of the inline helpers of the header and of the data
they read and write:

* `isert_chain_wr`, the append operation of the per-command work-request
  chain (`first_wr` / `last_wr` of `struct isert_rdma_ctx`);
* `isert_prot_cmd`, `isert_cmd_reg_on_rdma_read`, `isert_cmd_reg_needed`,
  the predicates deciding whether a command needs a memory registration;
* `enum iser_conn_state` and the two reserved work-request identifiers.

Pointers are natural numbers (addresses), `0` is `NULL`.  The only field of
`struct ib_send_wr` the header touches is `next`; memory is therefore the
map sending the address of a work request to the content of its `next`
field.
-/

namespace Isert

/-! ## Constants -/

/-- The constant `#define ISCSI_ISER_SG_TABLESIZE 256` -/
def ISCSI_ISER_SG_TABLESIZE : Nat := 256

/-- The constant `#define ISER_FASTREG_LI_WRID 0xffffffffffffffffULL` -/
def ISER_FASTREG_LI_WRID : Nat := 0xffffffffffffffff

/-- The constant `#define ISER_BEACON_WRID 0xfffffffffffffffeULL` -/
def ISER_BEACON_WRID : Nat := 0xfffffffffffffffe

/-- Addition of two `unsigned long long` values: the sum modulo `2^64`. -/
def u64_add (a b : Nat) : Nat := (a + b) % 2 ^ 64

/-! ## Connection state -/

/-- The type `enum iser_conn_state`, the enumerators in the order of the header. -/
inductive iser_conn_state where
  | ISER_CONN_INIT
  | ISER_CONN_UP
  | ISER_CONN_FULL_FEATURE
  | ISER_CONN_TERMINATING
  | ISER_CONN_DOWN
  deriving DecidableEq, Repr, Fintype

open iser_conn_state

/-- The integer value C gives each enumerator: the first one is `0`, every
later one is its predecessor plus one. -/
def iser_conn_state.val : iser_conn_state → Nat
  | ISER_CONN_INIT => 0
  | ISER_CONN_UP => 1
  | ISER_CONN_FULL_FEATURE => 2
  | ISER_CONN_TERMINATING => 3
  | ISER_CONN_DOWN => 4

/-- Modelled from the spec: the connection state machine itself (the code
that assigns `isert_conn.state`) is not part of the header.  Section 4.3 of
the spec allows exactly INIT→UP, UP→FULL_FEATURE, {UP, FULL_FEATURE}→
TERMINATING, TERMINATING→DOWN and the fast-fail path INIT→DOWN. -/
def allowed_transition : iser_conn_state → iser_conn_state → Bool
  | ISER_CONN_INIT, ISER_CONN_UP => true
  | ISER_CONN_UP, ISER_CONN_FULL_FEATURE => true
  | ISER_CONN_UP, ISER_CONN_TERMINATING => true
  | ISER_CONN_FULL_FEATURE, ISER_CONN_TERMINATING => true
  | ISER_CONN_TERMINATING, ISER_CONN_DOWN => true
  | ISER_CONN_INIT, ISER_CONN_DOWN => true
  | _, _ => false

/-- A run of the state machine: a sequence of states in which every state
is followed by one that an allowed transition leads to. -/
def allowed_run (path : List iser_conn_state) : Prop :=
  List.Chain' (fun a b => allowed_transition a b = true) path

/-! ## Data model -/

/-- The type `struct list_head` (kernel list node): two pointers. -/
structure list_head where
  next : Nat
  prev : Nat
  deriving DecidableEq, Repr

/-- The type `struct isert_data_buf`.  `enum dma_data_direction` is kept as its
integer value. -/
structure isert_data_buf where
  sg : Nat
  nents : Int
  sg_off : Nat
  len : Nat
  offset : Nat
  dma_nents : Nat
  dma_dir : Nat
  deriving DecidableEq, Repr

/-- The type `struct isert_rdma_ctx`, field by field. -/
structure isert_rdma_ctx where
  sges : Nat
  nsge : Int
  rdmas : Nat
  nrdmas : Int
  first_wr : Nat
  last_wr : Nat
  nsge_per_rdma : Int
  dma_dir : Nat
  data_reg_offset : Nat
  prot_reg_offset : Nat
  ref_tag_offset : Nat
  data : isert_data_buf
  prot : isert_data_buf
  fr_list : list_head
  deriving DecidableEq, Repr

/-- The type `struct isert_device`: the scalar fields (the pointers to the verbs
device, protection domain and completion contexts are addresses; the
embedded `dev_node` and `dev_attr` play no role in the header's code). -/
structure isert_device where
  ib_device : Nat
  pd : Nat
  comps : Nat
  comps_used : Int
  pi_capable : Bool
  max_sge_rd : Int
  max_sge_wr : Int
  max_reg_pages : Nat
  register_rdma_reads : Bool
  rdma_read_access : Int
  refcount : Int
  deriving DecidableEq, Repr

/-- The type `struct isert_conn`: the scalar fields, with the pointer `device`
resolved to the device it points to (the header dereferences it without a
check).  Buffers, completions, locks and list nodes are not read by the
header's code and are left out. -/
structure isert_conn where
  state : iser_conn_state
  post_recv_buf_count : Int
  responder_resources : Nat
  initiator_depth : Nat
  pi_support : Bool
  login_req_len : Int
  device : isert_device
  fr_pool_size : Int
  logout_posted : Bool
  deriving DecidableEq, Repr

/-- Modelled from the spec: `struct se_cmd` belongs to the SCSI target core
and is not declared in the header; the only field read is `prot_op`, the
data-integrity operation requested for the command, an
`enum target_prot_op` kept as its integer value. -/
structure se_cmd where
  prot_op : Nat
  deriving DecidableEq, Repr

/-- Modelled from the spec: `struct iscsi_cmd` belongs to the iSCSI target
core and is not declared in the header; the only field read is the embedded
`se_cmd`. -/
structure iscsi_cmd where
  se_cmd : se_cmd
  deriving DecidableEq, Repr

/-- The type `struct isert_cmd`: the scalar fields, the embedded `rdma_ctx`, and the
pointers `conn` and `iscsi_cmd` resolved to what they point to (the header
dereferences both without a check). -/
structure isert_cmd where
  read_stag : Nat
  write_stag : Nat
  read_va : Nat
  write_va : Nat
  pdu_buf_dma : Nat
  pdu_buf_len : Nat
  rdma_ctx : isert_rdma_ctx
  conn : isert_conn
  iscsi_cmd : iscsi_cmd
  deriving DecidableEq, Repr

/-- What `isert_chain_wr` reads and writes: the context and, for every
address of a `struct ib_send_wr`, the content of its `next` field. -/
structure chain_state where
  ctx : isert_rdma_ctx
  next : Nat → Nat

/-! ## The inline functions -/

/-- The function `isert_chain_wr(ctx, wr)`.
```c
if (!ctx->first_wr) ctx->first_wr = wr;
if (ctx->last_wr)   ctx->last_wr->next = wr;
ctx->last_wr = wr;
wr->next = NULL;
```
The store `wr->next = NULL` dereferences `wr`, so a `NULL` request has no
result. -/
def isert_chain_wr (s : chain_state) (wr : Nat) : Option chain_state :=
  if wr = 0 then none
  else
    let ctx1 : isert_rdma_ctx :=
      if s.ctx.first_wr = 0 then { s.ctx with first_wr := wr } else s.ctx
    let next1 : Nat → Nat :=
      if ctx1.last_wr ≠ 0 then Function.update s.next ctx1.last_wr wr else s.next
    let ctx2 : isert_rdma_ctx := { ctx1 with last_wr := wr }
    some { ctx := ctx2, next := Function.update next1 wr 0 }

/-- The function `isert_prot_cmd(isert_cmd)`:
`conn->pi_support && iscsi_cmd->se_cmd.prot_op != TARGET_PROT_NORMAL`.
The enumerator `TARGET_PROT_NORMAL` of the target core is a parameter. -/
def isert_prot_cmd (TARGET_PROT_NORMAL : Nat) (cmd : isert_cmd) : Bool :=
  cmd.conn.pi_support && (cmd.iscsi_cmd.se_cmd.prot_op != TARGET_PROT_NORMAL)

/-- The function `isert_cmd_reg_on_rdma_read(isert_cmd)`:
`rdma_ctx.dma_dir == DMA_FROM_DEVICE && conn->device->register_rdma_reads`.
The enumerator `DMA_FROM_DEVICE` of the DMA API is a parameter. -/
def isert_cmd_reg_on_rdma_read (DMA_FROM_DEVICE : Nat) (cmd : isert_cmd) : Bool :=
  (cmd.rdma_ctx.dma_dir == DMA_FROM_DEVICE) && cmd.conn.device.register_rdma_reads

/-- The function `isert_cmd_reg_needed(isert_cmd)`:
`isert_prot_cmd(isert_cmd) || isert_cmd_reg_on_rdma_read(isert_cmd)`. -/
def isert_cmd_reg_needed (TARGET_PROT_NORMAL DMA_FROM_DEVICE : Nat) (cmd : isert_cmd) : Bool :=
  isert_prot_cmd TARGET_PROT_NORMAL cmd || isert_cmd_reg_on_rdma_read DMA_FROM_DEVICE cmd

/-! ## Chains -/

/-- Calling `isert_chain_wr` once per request, in the order of the list. -/
def chain_all (s : chain_state) : List Nat → Option chain_state
  | [] => some s
  | wr :: wrs => (isert_chain_wr s wr).bind (fun s1 => chain_all s1 wrs)

/-- Following the `next` pointers from `p` visits exactly the requests of
`l`, in that order, and then `NULL`. -/
def chain_is (next : Nat → Nat) : Nat → List Nat → Prop
  | p, [] => p = 0
  | p, x :: xs => p ≠ 0 ∧ p = x ∧ chain_is next (next x) xs

instance chain_is_decidable (next : Nat → Nat) :
    ∀ (p : Nat) (l : List Nat), Decidable (chain_is next p l)
  | p, [] => inferInstanceAs (Decidable (p = 0))
  | p, x :: xs =>
    have := chain_is_decidable next (next x) xs
    inferInstanceAs (Decidable (p ≠ 0 ∧ p = x ∧ chain_is next (next x) xs))

/-- The walk along `next` pointers, as the hardware does it when a chain is
posted: at most `fuel` requests, stopping at `NULL`. -/
def chain_walk (next : Nat → Nat) : Nat → Nat → List Nat
  | 0, _ => []
  | fuel + 1, p => if p = 0 then [] else p :: chain_walk next fuel (next p)

/-- The request `q` is met when the `next` pointers are followed from `p`
(before any `NULL`). -/
inductive reaches (next : Nat → Nat) : Nat → Nat → Prop
  | here (p : Nat) : p ≠ 0 → reaches next p p
  | step (p q : Nat) : p ≠ 0 → reaches next (next p) q → reaches next p q

/-- The chain of `s` is well formed and consists of the requests `l`: they
are pairwise distinct, `first_wr` leads through them to `NULL`, and
`last_wr` is the last of them (`NULL` when there is none). -/
def well_formed (s : chain_state) (l : List Nat) : Prop :=
  l.Nodup ∧ chain_is s.next s.ctx.first_wr l ∧ s.ctx.last_wr = l.getLastD 0

/-- The contexts obtained from an empty one (`first_wr = last_wr = NULL`,
any memory) by calls of `isert_chain_wr` with non-null requests that are
not already in the chain. -/
inductive built : chain_state → Prop
  | empty (s : chain_state) : s.ctx.first_wr = 0 → s.ctx.last_wr = 0 → built s
  | chain (s s1 : chain_state) (wr : Nat) : built s → wr ≠ 0 →
      ¬ reaches s.next s.ctx.first_wr wr → isert_chain_wr s wr = some s1 → built s1

/-! ## Concrete data -/

/-- A data buffer with every field zero. -/
def data_buf_zero : isert_data_buf :=
  { sg := 0, nents := 0, sg_off := 0, len := 0, offset := 0, dma_nents := 0, dma_dir := 0 }

/-- A freshly zeroed context: no chain (`first_wr = last_wr = NULL`). -/
def rdma_ctx_zero : isert_rdma_ctx :=
  { sges := 0, nsge := 0, rdmas := 0, nrdmas := 0, first_wr := 0, last_wr := 0,
    nsge_per_rdma := 0, dma_dir := 0, data_reg_offset := 0, prot_reg_offset := 0,
    ref_tag_offset := 0, data := data_buf_zero, prot := data_buf_zero,
    fr_list := { next := 0, prev := 0 } }

/-- An empty context over a memory whose `next` fields hold stale values. -/
def state_stale : chain_state := { ctx := rdma_ctx_zero, next := fun p => p + 7 }

/-- The context `isert_chain_wr` makes of `state_stale` and the request
`10`: the chain `10 → NULL`. -/
def state_one : chain_state :=
  { ctx := { rdma_ctx_zero with first_wr := 10, last_wr := 10 }
    next := Function.update (fun p => p + 7) 10 0 }

/-- The chain `10 → 20 → 30 → NULL` with head `10` and tail `30`. -/
def state_three : chain_state :=
  { ctx := { rdma_ctx_zero with first_wr := 10, last_wr := 30 }
    next := fun p => if p = 10 then 20 else if p = 20 then 30 else 0 }

/-- A context with a head but no tail: `first_wr = 10`, `last_wr = NULL`,
and `10 → 20 → NULL` in memory. -/
def state_head_only : chain_state :=
  { ctx := { rdma_ctx_zero with first_wr := 10, last_wr := 0 }
    next := fun p => if p = 10 then 20 else 0 }

/-- A context with a tail but no head: `first_wr = NULL`, `last_wr = 30`. -/
def state_tail_only : chain_state :=
  { ctx := { rdma_ctx_zero with first_wr := 0, last_wr := 30 }
    next := fun _ => 0 }

/-- A device that registers RDMA reads. -/
def device_reg_reads : isert_device :=
  { ib_device := 1, pd := 2, comps := 3, comps_used := 1, pi_capable := false,
    max_sge_rd := 30, max_sge_wr := 32, max_reg_pages := 256,
    register_rdma_reads := true, rdma_read_access := 0, refcount := 1 }

/-- A command of a connection with `pi_support = pi`, asking for the
data-integrity operation `op`, with transfer direction `dir`. -/
def cmd_example (pi : Bool) (op dir : Nat) : isert_cmd :=
  { read_stag := 0, write_stag := 0, read_va := 0, write_va := 0, pdu_buf_dma := 0,
    pdu_buf_len := 0, rdma_ctx := { rdma_ctx_zero with dma_dir := dir },
    conn := { state := ISER_CONN_FULL_FEATURE, post_recv_buf_count := 0,
              responder_resources := 0, initiator_depth := 0, pi_support := pi,
              login_req_len := 0, device := device_reg_reads, fr_pool_size := 0,
              logout_posted := false },
    iscsi_cmd := { se_cmd := { prot_op := op } } }

/-! ## Lemmas on chains -/

theorem chain_is_head_ne_zero {next : Nat → Nat} {p : Nat} {l : List Nat}
    (h : chain_is next p l) (hl : l ≠ []) : p ≠ 0 := by
  cases l with
  | nil => exact absurd rfl hl
  | cons x xs => exact h.1

theorem chain_is_head_eq {next : Nat → Nat} {p x : Nat} {xs : List Nat}
    (h : chain_is next p (x :: xs)) : p = x := h.2.1

theorem chain_is_mem_ne_zero {next : Nat → Nat} :
    ∀ {l : List Nat} {p : Nat}, chain_is next p l → ∀ x ∈ l, x ≠ 0
  | [], _, _, x, hx => by simp at hx
  | y :: ys, p, h, x, hx => by
    rcases List.mem_cons.1 hx with rfl | hx
    · exact h.2.1 ▸ h.1
    · exact chain_is_mem_ne_zero h.2.2 x hx

/-- Replacing what follows `w` in a chain: the requests before `w` keep
their `next` pointers, and `w` is followed by the chain `c`. -/
theorem chain_is_splice {next next1 : Nat → Nat} {w : Nat} {b c : List Nat} :
    ∀ {a : List Nat} {p : Nat}, chain_is next p (a ++ w :: b) →
      (∀ x ∈ a, next1 x = next x) → chain_is next1 (next1 w) c →
      chain_is next1 p (a ++ w :: c)
  | [], p, h, _, hc => ⟨h.1, h.2.1, hc⟩
  | x :: a, p, h, ha, hc => by
    refine ⟨h.1, h.2.1, ?_⟩
    rw [ha x (List.mem_cons_self x a)]
    exact chain_is_splice h.2.2 (fun y hy => ha y (List.mem_cons_of_mem x hy)) hc

theorem chain_is_unique {next : Nat → Nat} :
    ∀ {l1 l2 : List Nat} {p : Nat}, chain_is next p l1 → chain_is next p l2 → l1 = l2
  | [], [], _, _, _ => rfl
  | [], _ :: _, _, h1, h2 => absurd h1 h2.1
  | _ :: _, [], _, h1, h2 => absurd h2 h1.1
  | x :: xs, y :: ys, p, h1, h2 => by
    have hxy : x = y := h1.2.1.symm.trans h2.2.1
    subst hxy
    rw [chain_is_unique h1.2.2 h2.2.2]

theorem reaches_mem_of_chain_is {next : Nat → Nat} {p q : Nat} (hr : reaches next p q) :
    ∀ {l : List Nat}, chain_is next p l → q ∈ l := by
  induction hr with
  | here p hp =>
    intro l hl
    cases l with
    | nil => exact absurd hl hp
    | cons x xs => exact hl.2.1 ▸ List.mem_cons_self x xs
  | step p q hp _ ih =>
    intro l hl
    cases l with
    | nil => exact absurd hl hp
    | cons x xs =>
      have hpx : p = x := hl.2.1
      subst hpx
      exact List.mem_cons_of_mem p (ih hl.2.2)

theorem reaches_of_mem_chain_is {next : Nat → Nat} {q : Nat} :
    ∀ {l : List Nat} {p : Nat}, chain_is next p l → q ∈ l → reaches next p q
  | [], _, _, hq => by simp at hq
  | x :: xs, p, h, hq => by
    have hpx : p = x := h.2.1
    subst hpx
    rcases List.mem_cons.1 hq with rfl | hq
    · exact reaches.here _ h.1
    · exact reaches.step _ _ h.1 (reaches_of_mem_chain_is h.2.2 hq)

/-- In a chain, the requests met from the head are the requests of the
chain. -/
theorem reaches_iff_mem {next : Nat → Nat} {p q : Nat} {l : List Nat}
    (h : chain_is next p l) : reaches next p q ↔ q ∈ l :=
  ⟨fun hr => reaches_mem_of_chain_is hr h, reaches_of_mem_chain_is h⟩

/-- In a chain without repetition the last request, and no other, has a
`NULL` next pointer. -/
theorem chain_is_next_eq_zero_iff {next : Nat → Nat} :
    ∀ {l : List Nat} {p : Nat}, chain_is next p l → l.Nodup →
      ∀ x ∈ l, (next x = 0 ↔ l.getLast? = some x)
  | [], _, _, _, x, hx => by simp at hx
  | [y], p, h, _, x, hx => by
    have hxy : x = y := by simpa using hx
    subst hxy
    have h0 : next x = 0 := h.2.2
    simp [h0]
  | y :: z :: zs, p, h, hnd, x, hx => by
    have hnd1 : (z :: zs).Nodup := (List.nodup_cons.1 hnd).2
    have hy : y ∉ z :: zs := (List.nodup_cons.1 hnd).1
    have hlast : (y :: z :: zs).getLast? = (z :: zs).getLast? := by simp [List.getLast?]
    rw [hlast]
    rcases List.mem_cons.1 hx with rfl | hx
    · have hne : next x ≠ 0 := h.2.2.1
      constructor
      · intro h0; exact absurd h0 hne
      · intro hl; exact absurd (List.mem_of_getLast?_eq_some hl) hy
    · exact chain_is_next_eq_zero_iff h.2.2 hnd1 x hx

theorem chain_walk_of_chain_is {next : Nat → Nat} :
    ∀ {l : List Nat} {p : Nat}, chain_is next p l →
      ∀ fuel, l.length < fuel → chain_walk next fuel p = l
  | [], p, h, fuel, hf => by
    have hp : p = 0 := h
    cases fuel with
    | zero => rfl
    | succ n => simp [chain_walk, hp]
  | x :: xs, p, h, fuel, hf => by
    cases fuel with
    | zero => simp at hf
    | succ n =>
      have hpx : p = x := h.2.1
      subst hpx
      have hlen : xs.length < n := by simpa using hf
      simp [chain_walk, h.1, chain_walk_of_chain_is h.2.2 n hlen]

/-! ## Lemmas on `isert_chain_wr` -/

/-- The result of `isert_chain_wr` on a non-null request, written out. -/
theorem isert_chain_wr_eq (s : chain_state) (wr : Nat) (hwr : wr ≠ 0) :
    isert_chain_wr s wr = some
      { ctx := { s.ctx with
                  first_wr := if s.ctx.first_wr = 0 then wr else s.ctx.first_wr
                  last_wr := wr }
        next := Function.update
          (if s.ctx.last_wr ≠ 0 then Function.update s.next s.ctx.last_wr wr else s.next)
          wr 0 } := by
  unfold isert_chain_wr
  by_cases hf : s.ctx.first_wr = 0 <;> simp [hwr, hf]

/-- Appending a request that is not in a well-formed chain gives the
well-formed chain with the request added at the end. -/
theorem well_formed_append {s : chain_state} {l : List Nat} {wr : Nat}
    (hwf : well_formed s l) (hwr : wr ≠ 0) (hnew : wr ∉ l) :
    ∃ s1, isert_chain_wr s wr = some s1 ∧ well_formed s1 (l ++ [wr]) := by
  refine ⟨_, isert_chain_wr_eq s wr hwr, ?_⟩
  obtain ⟨hnd, hch, hlast⟩ := hwf
  have hnd1 : (l ++ [wr]).Nodup := by
    rw [List.nodup_append]
    exact ⟨hnd, List.nodup_singleton wr, by simpa using hnew⟩
  rcases List.eq_nil_or_concat l with rfl | ⟨a, t, rfl⟩
  all_goals try rw [List.concat_eq_append] at *
  · have hf : s.ctx.first_wr = 0 := hch
    have hl : s.ctx.last_wr = 0 := hlast
    refine ⟨hnd1, ?_, ?_⟩
    · simp [chain_is, hf, hl, hwr]
    · simp
  · have hl : s.ctx.last_wr = t := by simpa using hlast
    have ht0 : t ≠ 0 := chain_is_mem_ne_zero hch t (by simp)
    have hf0 : s.ctx.first_wr ≠ 0 := chain_is_head_ne_zero hch (by simp)
    have htw : t ≠ wr := fun h => hnew (by simp [h])
    have hta : t ∉ a := by
      intro hmem
      have := List.nodup_append.1 hnd
      exact this.2.2 hmem (List.mem_singleton_self t)
    refine ⟨hnd1, ?_, ?_⟩
    · have hgoal : chain_is
          (Function.update (Function.update s.next t wr) wr 0) s.ctx.first_wr
          (a ++ t :: [wr]) := by
        refine chain_is_splice (b := []) hch ?_ ?_
        · intro x hx
          have hxw : x ≠ wr := fun h => hnew (by simp [← h, hx])
          have hxt : x ≠ t := fun h => hta (h ▸ hx)
          simp [Function.update, hxw, hxt]
        · simp [chain_is, Function.update, htw, hwr]
      simpa [hf0, hl, ht0] using hgoal
    · simp

/-- Chaining a list of fresh, pairwise distinct, non-null requests onto a
well-formed chain gives the well-formed chain extended by the list. -/
theorem chain_all_well_formed :
    ∀ (ws : List Nat) {s : chain_state} {l : List Nat}, well_formed s l →
      (l ++ ws).Nodup → (∀ w ∈ ws, w ≠ 0) →
      ∃ s1, chain_all s ws = some s1 ∧ well_formed s1 (l ++ ws)
  | [], s, l, hwf, _, _ => ⟨s, rfl, by simpa using hwf⟩
  | w :: ws, s, l, hwf, hnd, hnz => by
    have hw : w ∉ l := by
      intro hmem
      exact (List.nodup_append.1 hnd).2.2 hmem (List.mem_cons_self w ws)
    obtain ⟨s1, h1, hwf1⟩ := well_formed_append hwf (hnz w (List.mem_cons_self w ws)) hw
    have hnd1 : ((l ++ [w]) ++ ws).Nodup := by simpa using hnd
    obtain ⟨s2, h2, hwf2⟩ := chain_all_well_formed ws hwf1 hnd1
      (fun x hx => hnz x (List.mem_cons_of_mem w hx))
    refine ⟨s2, ?_, by simpa using hwf2⟩
    simp [chain_all, h1, h2]

/-- An empty context is a well-formed empty chain. -/
theorem well_formed_empty {s : chain_state} (hf : s.ctx.first_wr = 0)
    (hl : s.ctx.last_wr = 0) : well_formed s [] :=
  ⟨List.nodup_nil, hf, hl⟩

/-- Every context built from an empty one is a well-formed chain. -/
theorem built_well_formed {s : chain_state} (hb : built s) : ∃ l, well_formed s l := by
  induction hb with
  | empty s hf hl => exact ⟨[], well_formed_empty hf hl⟩
  | chain s s1 wr _ hwr hnew hstep ih =>
    obtain ⟨l, hwf⟩ := ih
    have hmem : wr ∉ l := fun hm => hnew ((reaches_iff_mem hwf.2.1).2 hm)
    obtain ⟨s2, h2, hwf2⟩ := well_formed_append hwf hwr hmem
    have : s1 = s2 := Option.some.inj (hstep.symm.trans h2)
    exact ⟨l ++ [wr], this ▸ hwf2⟩

/-- Storing `NULL` in the `next` field of `wr` does not make `wr` reachable
from a request it was not reachable from. -/
theorem reaches_update_self {next : Nat → Nat} {wr p q : Nat}
    (hr : reaches (Function.update next wr 0) p q) :
    reaches next p wr ∨ reaches next p q := by
  induction hr with
  | here p hp => exact Or.inr (reaches.here p hp)
  | step p q hp _ ih =>
    by_cases hpw : p = wr
    · exact Or.inl (hpw ▸ reaches.here p hp)
    · rw [Function.update_noteq hpw] at ih
      rcases ih with h | h
      · exact Or.inl (reaches.step _ _ hp h)
      · exact Or.inr (reaches.step _ _ hp h)

theorem getLastD_append_cons_mem (a b : List Nat) (w : Nat) :
    (a ++ w :: b).getLastD 0 ∈ w :: b := by
  have hne : a ++ w :: b ≠ [] := by simp
  have h1 : (a ++ w :: b).getLastD 0 = (a ++ w :: b).getLast hne := by
    rw [List.getLastD_eq_getLast?, List.getLast?_eq_getLast _ hne]
    rfl
  have hne2 : w :: b ≠ [] := by simp
  rw [h1, List.getLast_append_of_ne_nil hne2]
  exact List.getLast_mem _

/-- Chaining again a request `w` that is already in a well-formed chain cuts
the chain after `w`: what followed `w` is no longer met from the head. -/
theorem well_formed_rechain {s : chain_state} {a b : List Nat} {w : Nat}
    (hwf : well_formed s (a ++ w :: b)) :
    ∃ s1, isert_chain_wr s w = some s1 ∧ well_formed s1 (a ++ [w]) ∧
      ∀ x ∈ b, ¬ reaches s1.next s1.ctx.first_wr x := by
  obtain ⟨hnd, hch, hlast⟩ := hwf
  have hw0 : w ≠ 0 := chain_is_mem_ne_zero hch w (by simp)
  have hf0 : s.ctx.first_wr ≠ 0 := chain_is_head_ne_zero hch (by simp)
  have htm : s.ctx.last_wr ∈ w :: b := hlast ▸ getLastD_append_cons_mem a b w
  have ht0 : s.ctx.last_wr ≠ 0 := chain_is_mem_ne_zero hch _ (by simp [htm])
  have hdis := (List.nodup_append.1 hnd).2.2
  have hnd1 : (a ++ [w]).Nodup := by
    refine hnd.sublist ?_
    exact List.Sublist.append (List.Sublist.refl a) (by simp)
  have hchain : chain_is
      (Function.update (Function.update s.next s.ctx.last_wr w) w 0) s.ctx.first_wr
      (a ++ w :: []) := by
    refine chain_is_splice hch ?_ ?_
    · intro x hx
      have hxw : x ≠ w := fun h => hdis hx (by simp [h])
      have hxt : x ≠ s.ctx.last_wr := fun h => hdis hx (h ▸ htm)
      simp [Function.update, hxw, hxt]
    · simp [chain_is]
  have hwf1 : well_formed
      { ctx := { s.ctx with
                  first_wr := if s.ctx.first_wr = 0 then w else s.ctx.first_wr
                  last_wr := w }
        next := Function.update
          (if s.ctx.last_wr ≠ 0 then Function.update s.next s.ctx.last_wr w else s.next)
          w 0 } (a ++ [w]) := by
    refine ⟨hnd1, ?_, by simp⟩
    simpa [hf0, ht0] using hchain
  refine ⟨_, isert_chain_wr_eq s w hw0, hwf1, ?_⟩
  intro x hx hr
  have hmem : x ∈ a ++ [w] := (reaches_iff_mem hwf1.2.1).1 hr
  have hnd2 : (w :: b).Nodup := (List.nodup_append.1 hnd).2.1
  rcases List.mem_append.1 hmem with h | h
  · exact hdis h (List.mem_cons_of_mem w hx)
  · have hxw : x = w := by simpa using h
    exact (List.nodup_cons.1 hnd2).1 (hxw ▸ hx)

/-! ## The registration predicates -/

/-- Claim C2: `isert_cmd_reg_needed` is true exactly when `isert_prot_cmd` is
true or `isert_cmd_reg_on_rdma_read` is true, that is, exactly when (the
connection has `pi_support` and `prot_op` is not `TARGET_PROT_NORMAL`) or
(`rdma_ctx.dma_dir` is `DMA_FROM_DEVICE` and the device has
`register_rdma_reads`); in particular it is true whenever `isert_prot_cmd`
is, whatever the direction and the device policy. -/
theorem isert_cmd_reg_needed_iff (TARGET_PROT_NORMAL DMA_FROM_DEVICE : Nat) (cmd : isert_cmd) :
    (isert_cmd_reg_needed TARGET_PROT_NORMAL DMA_FROM_DEVICE cmd = true ↔
      (isert_prot_cmd TARGET_PROT_NORMAL cmd = true ∨
        isert_cmd_reg_on_rdma_read DMA_FROM_DEVICE cmd = true)) ∧
    (isert_cmd_reg_needed TARGET_PROT_NORMAL DMA_FROM_DEVICE cmd = true ↔
      ((cmd.conn.pi_support = true ∧ cmd.iscsi_cmd.se_cmd.prot_op ≠ TARGET_PROT_NORMAL) ∨
        (cmd.rdma_ctx.dma_dir = DMA_FROM_DEVICE ∧
          cmd.conn.device.register_rdma_reads = true))) ∧
    (isert_prot_cmd TARGET_PROT_NORMAL cmd = true →
      isert_cmd_reg_needed TARGET_PROT_NORMAL DMA_FROM_DEVICE cmd = true) := by
  refine ⟨?_, ?_, ?_⟩
  · simp [isert_cmd_reg_needed]
  · simp [isert_cmd_reg_needed, isert_prot_cmd, isert_cmd_reg_on_rdma_read]
  · intro h
    simp [isert_cmd_reg_needed, h]

/-- A protected write (`pi_support`, operation `1`, direction `1`, with
`TARGET_PROT_NORMAL = 0` and `DMA_FROM_DEVICE = 2`) needs a registration. -/
theorem isert_cmd_reg_needed_iff_witness :
    isert_prot_cmd 0 (cmd_example true 1 1) = true ∧
      isert_cmd_reg_needed 0 2 (cmd_example true 1 1) = true :=
  ⟨by decide, (isert_cmd_reg_needed_iff 0 2 (cmd_example true 1 1)).2.2 (by decide)⟩

/-- Claim C3, as stated, fails: a command asking for a data-integrity
operation (`prot_op = 1`, with `TARGET_PROT_NORMAL = 0`) on a connection
without `pi_support`, writing to the initiator (`dma_dir = 1`, with
`DMA_FROM_DEVICE = 2`), does not require protection handling and needs no
registration. -/
theorem prot_op_without_pi_support :
    (cmd_example false 1 1).iscsi_cmd.se_cmd.prot_op ≠ 0 ∧
      isert_prot_cmd 0 (cmd_example false 1 1) = false ∧
      isert_cmd_reg_needed 0 2 (cmd_example false 1 1) = false := by
  decide

/-- Claim C3, amended: for every command of a connection with `pi_support`
for which a data-integrity operation is requested (`prot_op` different from
`TARGET_PROT_NORMAL`), `isert_prot_cmd` and `isert_cmd_reg_needed` are true,
whatever the transfer direction, the other fields and the device's
read-registration policy. -/
theorem isert_prot_cmd_of_pi_support (TARGET_PROT_NORMAL DMA_FROM_DEVICE : Nat)
    (cmd : isert_cmd) (hpi : cmd.conn.pi_support = true)
    (hop : cmd.iscsi_cmd.se_cmd.prot_op ≠ TARGET_PROT_NORMAL) :
    isert_prot_cmd TARGET_PROT_NORMAL cmd = true ∧
      isert_cmd_reg_needed TARGET_PROT_NORMAL DMA_FROM_DEVICE cmd = true := by
  simp [isert_cmd_reg_needed, isert_prot_cmd, hpi, hop]

/-- A protected read with `pi_support` requires protection handling. -/
theorem isert_prot_cmd_of_pi_support_witness :
    (cmd_example true 3 2).conn.pi_support = true ∧
      (cmd_example true 3 2).iscsi_cmd.se_cmd.prot_op ≠ 0 ∧
      isert_prot_cmd 0 (cmd_example true 3 2) = true ∧
      isert_cmd_reg_needed 0 2 (cmd_example true 3 2) = true :=
  ⟨rfl, by decide, isert_prot_cmd_of_pi_support 0 2 (cmd_example true 3 2) rfl (by decide)⟩

/-! ## The reserved work-request identifiers -/

/-- Claim C10: the two reserved identifiers are distinct 64-bit values,
`ISER_BEACON_WRID = 2^64 - 2`, `ISER_FASTREG_LI_WRID = 2^64 - 1`, the second
is the first plus one, and the second plus one wraps to `0` modulo `2^64`. -/
theorem reserved_wrids_distinct :
    ISER_BEACON_WRID = 2 ^ 64 - 2 ∧ ISER_FASTREG_LI_WRID = 2 ^ 64 - 1 ∧
      ISER_BEACON_WRID < 2 ^ 64 ∧ ISER_FASTREG_LI_WRID < 2 ^ 64 ∧
      ISER_BEACON_WRID + 1 = ISER_FASTREG_LI_WRID ∧
      u64_add ISER_BEACON_WRID 1 = ISER_FASTREG_LI_WRID ∧
      u64_add ISER_FASTREG_LI_WRID 1 = 0 ∧
      ISER_BEACON_WRID ≠ ISER_FASTREG_LI_WRID := by
  simp [ISER_BEACON_WRID, ISER_FASTREG_LI_WRID, u64_add]

/-! ## The connection state -/

/-- Claim C6: `iser_conn_state` has exactly the five values INIT, UP,
FULL_FEATURE, TERMINATING, DOWN, pairwise distinct and encoded 0, 1, 2, 3, 4
in that order; every allowed transition strictly increases the encoded
value, and every sequence of allowed transitions is strictly increasing, so
it enters no state twice and makes at most 4 transitions. -/
theorem conn_state_runs_strictly_increase :
    (ISER_CONN_INIT.val = 0 ∧ ISER_CONN_UP.val = 1 ∧ ISER_CONN_FULL_FEATURE.val = 2 ∧
      ISER_CONN_TERMINATING.val = 3 ∧ ISER_CONN_DOWN.val = 4) ∧
    (∀ st : iser_conn_state, st = ISER_CONN_INIT ∨ st = ISER_CONN_UP ∨
      st = ISER_CONN_FULL_FEATURE ∨ st = ISER_CONN_TERMINATING ∨ st = ISER_CONN_DOWN) ∧
    Function.Injective iser_conn_state.val ∧
    (∀ a b : iser_conn_state, allowed_transition a b = true → a.val < b.val) ∧
    (∀ path : List iser_conn_state, allowed_run path →
      path.Pairwise (fun a b => a.val < b.val) ∧ path.Nodup ∧ path.length - 1 ≤ 4) := by
  have hstep : ∀ a b : iser_conn_state, allowed_transition a b = true → a.val < b.val := by
    intro a b
    cases a <;> cases b <;> simp [allowed_transition, iser_conn_state.val]
  refine ⟨⟨rfl, rfl, rfl, rfl, rfl⟩, ?_, ?_, hstep, ?_⟩
  · intro st
    cases st <;> simp
  · intro a b
    cases a <;> cases b <;> simp [iser_conn_state.val]
  · intro path hrun
    have hlt : List.Chain' (fun a b : iser_conn_state => a.val < b.val) path :=
      List.Chain'.imp (fun a b h => hstep a b h) hrun
    have hmap : List.Chain' (fun x y : Nat => x < y) (path.map iser_conn_state.val) :=
      (List.chain'_map iser_conn_state.val).2 hlt
    have hpw : path.Pairwise (fun a b => a.val < b.val) :=
      List.pairwise_map.1 (List.chain'_iff_pairwise.1 hmap)
    have hnd : path.Nodup :=
      hpw.imp (fun {a b} h hab => by rw [hab] at h; exact lt_irrefl _ h)
    have hcard : path.length ≤ Fintype.card iser_conn_state := hnd.length_le_card
    have h5 : Fintype.card iser_conn_state = 5 := rfl
    exact ⟨hpw, hnd, by omega⟩

/-- The longest run, INIT → UP → FULL_FEATURE → TERMINATING → DOWN, is
strictly increasing and makes 4 transitions. -/
theorem conn_state_runs_strictly_increase_witness :
    allowed_run [ISER_CONN_INIT, ISER_CONN_UP, ISER_CONN_FULL_FEATURE,
        ISER_CONN_TERMINATING, ISER_CONN_DOWN] ∧
      ([ISER_CONN_INIT, ISER_CONN_UP, ISER_CONN_FULL_FEATURE,
        ISER_CONN_TERMINATING, ISER_CONN_DOWN].Pairwise (fun a b => a.val < b.val) ∧
       [ISER_CONN_INIT, ISER_CONN_UP, ISER_CONN_FULL_FEATURE,
        ISER_CONN_TERMINATING, ISER_CONN_DOWN].Nodup ∧
       [ISER_CONN_INIT, ISER_CONN_UP, ISER_CONN_FULL_FEATURE,
        ISER_CONN_TERMINATING, ISER_CONN_DOWN].length - 1 ≤ 4) :=
  ⟨by simp [allowed_run, allowed_transition],
   conn_state_runs_strictly_increase.2.2.2.2 _ (by simp [allowed_run, allowed_transition])⟩

/-! ## The work-request chain -/

/-- Claim C5: for every context state and every non-null request `wr`, after
`isert_chain_wr(ctx, wr)` the tail is the new request and it is terminated
(`last_wr = wr`, `wr->next = NULL`, whatever `wr->next` held before); and if
the context had a non-null `last_wr` different from `wr`, the next pointer of
that previous tail is `wr`. -/
theorem isert_chain_wr_tail (s : chain_state) (wr : Nat) (hwr : wr ≠ 0) :
    ∃ s1, isert_chain_wr s wr = some s1 ∧ s1.ctx.last_wr = wr ∧ s1.next wr = 0 ∧
      (s.ctx.last_wr ≠ 0 → s.ctx.last_wr ≠ wr → s1.next s.ctx.last_wr = wr) := by
  refine ⟨_, isert_chain_wr_eq s wr hwr, rfl, by simp, ?_⟩
  intro h0 hne
  simp [Function.update, h0, hne]

/-- Appending `40` to the chain `10 → 20 → 30`: the tail becomes `40`,
terminated, and `30` points to it. -/
theorem isert_chain_wr_tail_witness :
    (40 : Nat) ≠ 0 ∧
      ∃ s1, isert_chain_wr state_three 40 = some s1 ∧ s1.ctx.last_wr = 40 ∧
        s1.next 40 = 0 ∧
        (state_three.ctx.last_wr ≠ 0 → state_three.ctx.last_wr ≠ 40 →
          s1.next state_three.ctx.last_wr = 40) :=
  ⟨by decide, isert_chain_wr_tail state_three 40 (by decide)⟩

/-- Claim C7: `isert_chain_wr` changes only the chain pointers: a non-null
`first_wr` is left as it is, every field of the context other than
`first_wr` and `last_wr` is unchanged, and the only requests whose `next`
pointer is written are the previous tail and `wr`. -/
theorem isert_chain_wr_frame (s : chain_state) (wr : Nat) (hwr : wr ≠ 0) :
    ∃ s1, isert_chain_wr s wr = some s1 ∧
      (s.ctx.first_wr ≠ 0 → s1.ctx.first_wr = s.ctx.first_wr) ∧
      s1.ctx.sges = s.ctx.sges ∧ s1.ctx.nsge = s.ctx.nsge ∧
      s1.ctx.rdmas = s.ctx.rdmas ∧ s1.ctx.nrdmas = s.ctx.nrdmas ∧
      s1.ctx.nsge_per_rdma = s.ctx.nsge_per_rdma ∧ s1.ctx.dma_dir = s.ctx.dma_dir ∧
      s1.ctx.data_reg_offset = s.ctx.data_reg_offset ∧
      s1.ctx.prot_reg_offset = s.ctx.prot_reg_offset ∧
      s1.ctx.ref_tag_offset = s.ctx.ref_tag_offset ∧
      s1.ctx.data = s.ctx.data ∧ s1.ctx.prot = s.ctx.prot ∧
      s1.ctx.fr_list = s.ctx.fr_list ∧
      (∀ p, p ≠ s.ctx.last_wr → p ≠ wr → s1.next p = s.next p) := by
  refine ⟨_, isert_chain_wr_eq s wr hwr, ?_, rfl, rfl, rfl, rfl, rfl, rfl, rfl, rfl, rfl,
    rfl, rfl, rfl, ?_⟩
  · intro h
    simp [h]
  · intro p hp hpw
    by_cases hl : s.ctx.last_wr = 0 <;> simp [Function.update, hl, hp, hpw]

/-- Appending `40` to the chain `10 → 20 → 30` keeps the head `10`, the
other fields, and the `next` pointers of `10` and `20`. -/
theorem isert_chain_wr_frame_witness :
    (40 : Nat) ≠ 0 ∧
      ∃ s1, isert_chain_wr state_three 40 = some s1 ∧ s1.ctx.first_wr = 10 ∧
        s1.next 10 = 20 ∧ s1.next 20 = 30 := by
  obtain ⟨s1, h1, hf, _, _, _, _, _, _, _, _, _, _, _, _, hn⟩ :=
    isert_chain_wr_frame state_three 40 (by decide)
  exact ⟨by decide, s1, h1, hf (by decide),
    hn 10 (by decide) (by decide), hn 20 (by decide) (by decide)⟩

/-- Claim C1: for pairwise distinct, non-null requests `wr_1 .. wr_n`
(`n ≥ 1`), calling `isert_chain_wr` once per request, in that order, on a
context that starts with `first_wr = NULL` and `last_wr = NULL` yields a
chain that, followed from `first_wr` through the `next` pointers, visits
exactly `wr_1, .., wr_n` in that order and then `NULL`, with
`first_wr = wr_1` and `last_wr = wr_n`. -/
theorem isert_chain_wr_builds_in_order (s0 : chain_state) (wrs : List Nat)
    (hf : s0.ctx.first_wr = 0) (hl : s0.ctx.last_wr = 0) (hne : wrs ≠ [])
    (hnd : wrs.Nodup) (hnz : ∀ w ∈ wrs, w ≠ 0) :
    ∃ s, chain_all s0 wrs = some s ∧ chain_is s.next s.ctx.first_wr wrs ∧
      s.ctx.first_wr = wrs.head hne ∧ s.ctx.last_wr = wrs.getLast hne ∧
      ∀ fuel, wrs.length < fuel → chain_walk s.next fuel s.ctx.first_wr = wrs := by
  obtain ⟨s, hs, hwf⟩ := chain_all_well_formed wrs (well_formed_empty hf hl)
    (by simpa using hnd) hnz
  rw [List.nil_append] at hwf
  obtain ⟨_, hch, hlast⟩ := hwf
  refine ⟨s, hs, hch, ?_, ?_, chain_walk_of_chain_is hch⟩
  · cases wrs with
    | nil => exact absurd rfl hne
    | cons x xs => exact chain_is_head_eq hch
  · rw [hlast, List.getLastD_eq_getLast?, List.getLast?_eq_getLast _ hne]
    rfl

/-- Chaining `10, 20, 30` onto an empty context over stale memory. -/
theorem isert_chain_wr_builds_in_order_witness :
    state_stale.ctx.first_wr = 0 ∧ state_stale.ctx.last_wr = 0 ∧
      ∃ s, chain_all state_stale [10, 20, 30] = some s ∧
        chain_is s.next s.ctx.first_wr [10, 20, 30] ∧
        s.ctx.first_wr = 10 ∧ s.ctx.last_wr = 30 ∧
        ∀ fuel, 3 < fuel → chain_walk s.next fuel s.ctx.first_wr = [10, 20, 30] :=
  ⟨rfl, rfl, isert_chain_wr_builds_in_order state_stale [10, 20, 30] rfl rfl
    (by simp) (by decide) (by decide)⟩

/-- Claim C4: in every context reached from the empty one by calls of
`isert_chain_wr` with non-null requests not already in the chain, `first_wr`
is `NULL` exactly when `last_wr` is, and when they are non-null the chain
from `first_wr` is a finite list without repetition that ends in `last_wr`
and whose only `NULL` next pointer is that of `last_wr`. -/
theorem built_chain_invariant (s : chain_state) (hb : built s) :
    (s.ctx.first_wr = 0 ↔ s.ctx.last_wr = 0) ∧
    (s.ctx.first_wr ≠ 0 → ∃ l : List Nat, l.Nodup ∧
      chain_is s.next s.ctx.first_wr l ∧ l.getLast? = some s.ctx.last_wr ∧
      ∀ x ∈ l, (s.next x = 0 ↔ x = s.ctx.last_wr)) := by
  obtain ⟨l, hnd, hch, hlast⟩ := built_well_formed hb
  rcases List.eq_nil_or_concat l with rfl | ⟨a, t, rfl⟩
  · have hf : s.ctx.first_wr = 0 := hch
    have hl : s.ctx.last_wr = 0 := hlast
    exact ⟨by simp [hf, hl], fun h => absurd hf h⟩
  · rw [List.concat_eq_append] at hnd hch hlast
    have hl : s.ctx.last_wr = t := by simpa using hlast
    have ht0 : t ≠ 0 := chain_is_mem_ne_zero hch t (by simp)
    have hf0 : s.ctx.first_wr ≠ 0 := chain_is_head_ne_zero hch (by simp)
    have hg : (a ++ [t]).getLast? = some t := by simp
    refine ⟨by simp [hf0, hl, ht0], fun _ => ⟨a ++ [t], hnd, hch, by rw [hg, hl], ?_⟩⟩
    intro x hx
    rw [chain_is_next_eq_zero_iff hch hnd x hx, hg, hl]
    constructor
    · intro h; exact (Option.some.inj h).symm
    · intro h; rw [h]

/-- The context obtained by chaining `10` onto an empty context over stale
memory satisfies the invariant. -/
theorem built_chain_invariant_witness :
    built state_one ∧
      (state_one.ctx.first_wr = 0 ↔ state_one.ctx.last_wr = 0) ∧
      (state_one.ctx.first_wr ≠ 0 → ∃ l : List Nat, l.Nodup ∧
        chain_is state_one.next state_one.ctx.first_wr l ∧
        l.getLast? = some state_one.ctx.last_wr ∧
        ∀ x ∈ l, (state_one.next x = 0 ↔ x = state_one.ctx.last_wr)) :=
  have hb : built state_one :=
    built.chain state_stale state_one 10 (built.empty state_stale rfl rfl) (by decide)
      (fun h => by cases h; contradiction) rfl
  ⟨hb, built_chain_invariant state_one hb⟩

/-- Claim C8: `isert_chain_wr` does not guard against re-appending.  For a
well-formed chain `wr_1 .. wr_n` with `n ≥ 3` and `1 ≤ i < n - 1`, calling
`isert_chain_wr(ctx, wr_i)` leaves a chain that, followed from `first_wr`,
is `wr_1 .. wr_i` followed by `NULL` (still without repetition, with
`last_wr = wr_i`); the requests `wr_{i+1} .. wr_n` are no longer met from
`first_wr`, and the result is not the in-order chain `wr_1 .. wr_n, wr_i`. -/
theorem isert_chain_wr_again_truncates (s : chain_state) (wrs : List Nat) (i w : Nat)
    (hwf : well_formed s wrs) (hn : 3 ≤ wrs.length) (hi1 : 1 ≤ i)
    (hi : i < wrs.length - 1) (hw : wrs[i - 1]? = some w) :
    ∃ s1, isert_chain_wr s w = some s1 ∧ well_formed s1 (wrs.take i) ∧
      chain_is s1.next s1.ctx.first_wr (wrs.take i) ∧
      (wrs.drop i).length = wrs.length - i ∧ 2 ≤ wrs.length - i ∧
      (∀ x ∈ wrs.drop i, ¬ reaches s1.next s1.ctx.first_wr x) ∧
      ¬ chain_is s1.next s1.ctx.first_wr (wrs ++ [w]) := by
  obtain ⟨j, rfl⟩ : ∃ j, i = j + 1 := ⟨i - 1, by omega⟩
  have hj : j < wrs.length := by omega
  have hwj : wrs[j]? = some w := by simpa using hw
  have hget : wrs[j] = w := by
    rw [List.getElem?_eq_getElem hj] at hwj
    exact Option.some.inj hwj
  have hsplit : wrs = wrs.take j ++ w :: wrs.drop (j + 1) := by
    rw [← hget, ← List.drop_eq_getElem_cons hj, List.take_append_drop]
  have htake : wrs.take (j + 1) = wrs.take j ++ [w] := by
    rw [List.take_succ, hwj]
    rfl
  have hwf2 : well_formed s (wrs.take j ++ w :: wrs.drop (j + 1)) := hsplit ▸ hwf
  obtain ⟨s1, h1, hwf1, hun⟩ := well_formed_rechain hwf2
  rw [← htake] at hwf1
  refine ⟨s1, h1, hwf1, hwf1.2.1, by simp, by omega, hun, ?_⟩
  intro hbad
  have hlen := congrArg List.length (chain_is_unique hwf1.2.1 hbad)
  simp at hlen
  omega

/-- Chaining `10` again in the chain `10 → 20 → 30` leaves the chain
`10 → NULL`: `20` and `30` are no longer met from `first_wr`. -/
theorem isert_chain_wr_again_truncates_witness :
    well_formed state_three [10, 20, 30] ∧
      ∃ s1, isert_chain_wr state_three 10 = some s1 ∧ well_formed s1 [10] ∧
        chain_is s1.next s1.ctx.first_wr [10] ∧
        ¬ reaches s1.next s1.ctx.first_wr 20 ∧ ¬ reaches s1.next s1.ctx.first_wr 30 ∧
        ¬ chain_is s1.next s1.ctx.first_wr [10, 20, 30, 10] := by
  have hwf : well_formed state_three [10, 20, 30] := ⟨by decide, by decide, rfl⟩
  obtain ⟨s1, h1, hwf1, hch, _, _, hun, hbad⟩ :=
    isert_chain_wr_again_truncates state_three [10, 20, 30] 1 10 hwf (by decide)
      (by decide) (by decide) rfl
  exact ⟨hwf, s1, h1, hwf1, hch, hun 20 (by decide), hun 30 (by decide), hbad⟩

/-- Claim C9, as stated, fails in its second half: in the context with
`first_wr = NULL` and `last_wr = 30`, chaining the request `30` itself makes
`30` head and tail, but the old tail `30` is not linked in front of the
head (its `next` pointer is `NULL`, not `30`) and the chain from the head
does include it. -/
theorem tail_only_rechain_tail :
    state_tail_only.ctx.first_wr = 0 ∧ state_tail_only.ctx.last_wr ≠ 0 ∧ (30 : Nat) ≠ 0 ∧
      ∃ s1, isert_chain_wr state_tail_only 30 = some s1 ∧
        s1.ctx.first_wr = 30 ∧ s1.ctx.last_wr = 30 ∧
        s1.next state_tail_only.ctx.last_wr ≠ 30 ∧
        s1.next state_tail_only.ctx.last_wr = 0 ∧
        reaches s1.next s1.ctx.first_wr state_tail_only.ctx.last_wr := by
  refine ⟨rfl, by decide, by decide, _, isert_chain_wr_eq state_tail_only 30 (by decide),
    rfl, rfl, ?_, ?_, ?_⟩
  · simp [state_tail_only]
  · simp [state_tail_only]
  · exact reaches.here 30 (by decide)

/-- Claim C9, amended: `isert_chain_wr` relies on head and tail being set
together.  For every context with `first_wr` non-null but `last_wr = NULL`
and every non-null `wr` not reachable from `first_wr`, after the call `wr`
is the tail but is not reachable from `first_wr`.  For every context with
`first_wr = NULL` and `last_wr` non-null and every non-null `wr` different
from that `last_wr`, `wr` becomes both `first_wr` and `last_wr`, the old
tail points to `wr`, and the chain from the head is `wr` alone, so it does
not include the old tail. -/
theorem isert_chain_wr_head_tail_apart (s : chain_state) (wr : Nat) (hwr : wr ≠ 0) :
    (s.ctx.first_wr ≠ 0 → s.ctx.last_wr = 0 → ¬ reaches s.next s.ctx.first_wr wr →
      ∃ s1, isert_chain_wr s wr = some s1 ∧ s1.ctx.last_wr = wr ∧
        s1.ctx.first_wr = s.ctx.first_wr ∧ ¬ reaches s1.next s1.ctx.first_wr wr) ∧
    (s.ctx.first_wr = 0 → s.ctx.last_wr ≠ 0 → s.ctx.last_wr ≠ wr →
      ∃ s1, isert_chain_wr s wr = some s1 ∧ s1.ctx.first_wr = wr ∧ s1.ctx.last_wr = wr ∧
        s1.next s.ctx.last_wr = wr ∧ chain_is s1.next s1.ctx.first_wr [wr] ∧
        ¬ reaches s1.next s1.ctx.first_wr s.ctx.last_wr) := by
  constructor
  · intro hf hl hnr
    refine ⟨_, isert_chain_wr_eq s wr hwr, rfl, by simp [hf], ?_⟩
    intro hr
    have hr1 : reaches (Function.update s.next wr 0) s.ctx.first_wr wr := by
      simpa [hf, hl] using hr
    rcases reaches_update_self hr1 with h | h <;> exact hnr h
  · intro hf hl hne
    have hch : chain_is
        (Function.update (Function.update s.next s.ctx.last_wr wr) wr 0) wr [wr] := by
      simp [chain_is, hwr]
    refine ⟨_, isert_chain_wr_eq s wr hwr, by simp [hf], rfl, ?_, ?_, ?_⟩
    · simp [Function.update, hl, hne]
    · simpa [hf, hl] using hch
    · intro hr
      have hr1 : reaches
          (Function.update (Function.update s.next s.ctx.last_wr wr) wr 0) wr
          s.ctx.last_wr := by
        simpa [hf, hl] using hr
      have hmem : s.ctx.last_wr ∈ [wr] := (reaches_iff_mem hch).1 hr1
      exact hne (by simpa using hmem)

/-- Chaining `40` onto a context with head `10 → 20` and no tail leaves `40`
out of the chain; chaining `40` onto a context with tail `30` and no head
makes `40` the whole chain, with `30` pointing to it from outside. -/
theorem isert_chain_wr_head_tail_apart_witness :
    (∃ s1, isert_chain_wr state_head_only 40 = some s1 ∧ s1.ctx.last_wr = 40 ∧
        s1.ctx.first_wr = 10 ∧ ¬ reaches s1.next s1.ctx.first_wr 40) ∧
    (∃ s1, isert_chain_wr state_tail_only 40 = some s1 ∧ s1.ctx.first_wr = 40 ∧
        s1.ctx.last_wr = 40 ∧ s1.next 30 = 40 ∧ chain_is s1.next s1.ctx.first_wr [40] ∧
        ¬ reaches s1.next s1.ctx.first_wr 30) := by
  have hch : chain_is state_head_only.next state_head_only.ctx.first_wr [10, 20] := by
    decide
  exact ⟨(isert_chain_wr_head_tail_apart state_head_only 40 (by decide)).1 (by decide) rfl
      (fun h => absurd ((reaches_iff_mem hch).1 h) (by decide)),
    (isert_chain_wr_head_tail_apart state_tail_only 40 (by decide)).2 rfl (by decide)
      (by decide)⟩

end Isert
